import Mathlib

/-!
Verification of a Boolfuck interpreter (Rust, `src/lib.rs`) against its
specification.  The interpreter state, the tape, the bit-level input and
output streams, the bracket matcher and the step/run loop are shallowly
embedded below; each definition mirrors the corresponding Rust item and is
named after it.  Rust `usize`/`u8` values are modelled as `Nat` (no
operation here can overflow: shifts are by `% 8`, byte ORs stay below 256)
and the `i32` head position as `Int`, following the specification's
unbounded-tape model.  Fallible operations return `Except`/`Option`; a
Rust `expect` panic is modelled as a dedicated `none`/`panicked` outcome.
-/

namespace Boolfuck

/-- The failure values produced by the interpreter.  The Rust code uses
`Result<_, String>`; each distinct `format!` message becomes one
constructor here, carrying the data interpolated into the message. -/
inductive BfError where
  /-- "Jumped beyond end of code: {idx}" (from `step`). -/
  | jumpedBeyondEnd (idx : Nat)
  /-- "Index out of bound in input stream: {bit}" (from `get_input_bit`). -/
  | inputExhausted (bit : Nat)
  /-- "Character passed is neither '[' nor ']': {c}" (from `get_matching_bracket`). -/
  | notABracket (c : Char)
  /-- "Reached start of code while looking for {c}" (from `get_matching_bracket`,
  searching backward): an `UnbalancedBrackets` failure. -/
  | reachedStartOfCode (lookingFor : Char)
  /-- "Reached end of code while looking for {c}" (from `get_matching_bracket`,
  searching forward): an `UnbalancedBrackets` failure. -/
  | reachedEndOfCode (lookingFor : Char)
deriving DecidableEq, Repr

/-- Rust `struct State` (src/lib.rs:1-11), field for field. -/
structure State where
  pos : Int
  pos_tape : List Bool
  neg_tape : List Bool
  input : List Nat
  input_bit : Nat
  output : List Nat
  output_bit : Nat
  code : List Char
  code_index : Nat
deriving DecidableEq, Repr

/-- Rust `State::new` (src/lib.rs:13-25): head at 0, empty tapes, the
given input and code, output buffer holding a single zero byte. -/
def new (code : List Char) (input : List Nat) : State :=
  { pos := 0
    pos_tape := []
    neg_tape := []
    input := input
    input_bit := 0
    output := [0]
    output_bit := 0
    code := code
    code_index := 0 }

/-- Rust `State::get_or_extend_mut` (src/lib.rs:36-41), first half: the
`resize` call, which pads the vector with `false` up to length `index + 1`
whenever `index` is out of range.  (The subsequent `get_mut(index).expect`
is modelled at the use site in `set_bit`.) -/
def get_or_extend (vec : List Bool) (index : Nat) : List Bool :=
  if vec.length ≤ index then vec ++ List.replicate (index + 1 - vec.length) false
  else vec

/-- Rust `State::set_bit` (src/lib.rs:27-35).  The write goes to
`pos_tape[pos]` for `pos ≥ 0` and to `neg_tape[-pos - 1]` otherwise,
after `get_or_extend`.  The `expect("Failed to resize vector?")` in
`get_or_extend_mut` is modelled by the `none` branch (proved unreachable
in `set_bit_isSome` below). -/
def set_bit (s : State) (bit : Bool) : Option State :=
  if 0 ≤ s.pos then
    let v := get_or_extend s.pos_tape s.pos.toNat
    if s.pos.toNat < v.length then some { s with pos_tape := v.set s.pos.toNat bit }
    else none
  else
    let i := (-s.pos).toNat - 1
    let v := get_or_extend s.neg_tape i
    if i < v.length then some { s with neg_tape := v.set i bit }
    else none

/-- Rust `State::get_bit` (src/lib.rs:42-50): an out-of-range read
(`.copied().unwrap_or(false)`) yields `false`. -/
def get_bit (s : State) : Bool :=
  if 0 ≤ s.pos then s.pos_tape.getD s.pos.toNat false
  else s.neg_tape.getD ((-s.pos).toNat - 1) false

/-- Rust `State::get_input_bit` (src/lib.rs:52-65): read bit
`input_bit % 8` (least-significant-bit first) of byte `input_bit / 8`,
advancing the cursor; error out when that byte does not exist. -/
def get_input_bit (s : State) : Except BfError (Bool × State) :=
  match s.input.get? (s.input_bit / 8) with
  | some word =>
      .ok ((word &&& (1 <<< (s.input_bit % 8))) != 0,
           { s with input_bit := s.input_bit + 1 })
  | none => .error (.inputExhausted s.input_bit)

/-- Rust `State::push_output_bit` (src/lib.rs:66-79).  Note that the
buffer-extension check happens only inside `if bit`; the
`expect("Failed to push enough output u8s")` is modelled by the `none`
branch (which is reachable, see the C1 theorem). -/
def push_output_bit (s : State) (bit : Bool) : Option State :=
  if bit then
    let out := if s.output.length < s.output_bit / 8 + 1 then s.output ++ [0] else s.output
    match out.get? (s.output_bit / 8) with
    | none => none
    | some w =>
        some { s with
                 output := out.set (s.output_bit / 8) (w ||| (1 <<< (s.output_bit % 8)))
                 output_bit := s.output_bit + 1 }
  else
    some { s with output_bit := s.output_bit + 1 }

/-- The scanning loop of Rust `State::get_matching_bracket`
(src/lib.rs:101-131) specialised to `direction = 1` (`init_char = '['`,
`match_char = ']'`).  Each recursive call is one loop iteration: check the
forward edge (`code_index + 1 == len`, rendered `len ≤ idx + 1`, which is
equivalent since the index stays in range), advance, then dispatch on the
character just reached, maintaining `mismatch_count`. -/
def scanF (code : List Char) (idx count : Nat) : Option Nat :=
  if code.length ≤ idx + 1 then none
  else
    let c := code.getD (idx + 1) ' '
    if c = '[' then scanF code (idx + 1) (count + 1)
    else if c = ']' then
      if 0 < count then scanF code (idx + 1) (count - 1)
      else some (idx + 1)
    else scanF code (idx + 1) count
termination_by code.length - idx
decreasing_by all_goals omega

/-- The scanning loop of Rust `State::get_matching_bracket`
(src/lib.rs:101-131) specialised to `direction = -1` (`init_char = ']'`,
`match_char = '['`): check the backward edge (`code_index == 0`), move
left, then dispatch on the character just reached. -/
def scanB (code : List Char) (idx count : Nat) : Option Nat :=
  if idx = 0 then none
  else
    let c := code.getD (idx - 1) ' '
    if c = ']' then scanB code (idx - 1) (count + 1)
    else if c = '[' then
      if 0 < count then scanB code (idx - 1) (count - 1)
      else some (idx - 1)
    else scanB code (idx - 1) count
termination_by idx
decreasing_by all_goals omega

/-- Rust `State::get_matching_bracket` (src/lib.rs:80-133): dispatch on
`init_char`, run the scan in the corresponding direction, and apply
`position_adjust` (`+1` past the `']'` found forward, `0` on the `'['`
found backward).  Stated over `(code, code_index)` — the only fields of
`&self` the Rust method reads. -/
def get_matching_bracket (code : List Char) (code_index : Nat) (init_char : Char) :
    Except BfError Nat :=
  if init_char = '[' then
    match scanF code code_index 0 with
    | some j => .ok (j + 1)
    | none => .error (.reachedEndOfCode ']')
  else if init_char = ']' then
    match scanB code code_index 0 with
    | some i => .ok i
    | none => .error (.reachedStartOfCode '[')
  else .error (.notABracket init_char)

/-- Outcome of one Rust `State::step` call: `Err` (`err`), a panic from an
`expect` inside the step (`panicked`), or `Ok(continue?)` together with
the updated state (`next`). -/
inductive StepRes where
  | err (e : BfError)
  | panicked
  | next (cont : Bool) (s : State)
deriving DecidableEq, Repr

/-- The `and_then` closure at the end of Rust `State::step`
(src/lib.rs:157-164): advance the program counter unless a jump was
taken, then report whether it is still inside the code. -/
def finishStep (jump_taken : Bool) (s : State) : StepRes :=
  let s' := if jump_taken then s else { s with code_index := s.code_index + 1 }
  .next (decide (s'.code_index < s'.code.length)) s'

/-- Rust `State::step` (src/lib.rs:135-167): dispatch on the character at
the program counter (an out-of-range counter is an error), perform the
instruction's effect, then `finishStep`.  The guarded match arms
`'[' if !get_bit` / `']' if get_bit` fall through to the catch-all no-op
arm when their guard fails. -/
def step (s : State) : StepRes :=
  match s.code.get? s.code_index with
  | none => .err (.jumpedBeyondEnd s.code_index)
  | some command =>
    if command = '+' then
      match set_bit s (!get_bit s) with
      | none => .panicked
      | some s' => finishStep false s'
    else if command = ',' then
      match get_input_bit s with
      | .error e => .err e
      | .ok (b, s₁) =>
        match set_bit s₁ b with
        | none => .panicked
        | some s' => finishStep false s'
    else if command = ';' then
      match push_output_bit s (get_bit s) with
      | none => .panicked
      | some s' => finishStep false s'
    else if command = '<' then
      finishStep false { s with pos := s.pos - 1 }
    else if command = '>' then
      finishStep false { s with pos := s.pos + 1 }
    else if command = '[' then
      if get_bit s then finishStep false s
      else
        match get_matching_bracket s.code s.code_index '[' with
        | .error e => .err e
        | .ok i => finishStep true { s with code_index := i }
    else if command = ']' then
      if get_bit s then
        match get_matching_bracket s.code s.code_index ']' with
        | .error e => .err e
        | .ok i => finishStep true { s with code_index := i }
      else finishStep false s
    else finishStep false s

/-- Outcome of Rust `State::run`: the final output bytes, an error, a
panic, or fuel exhaustion (the Rust loop has no fuel; `fuelOut` marks
runs longer than the supplied bound and occurs in no theorem below). -/
inductive RunRes where
  | out (bytes : List Nat)
  | err (e : BfError)
  | panicked
  | fuelOut
deriving DecidableEq, Repr

/-- Rust `State::run` (src/lib.rs:168-177), with explicit fuel bounding
the number of `step` calls: loop on `Ok(true)`, stop on `Ok(false)` and
return a copy of the output buffer, propagate errors. -/
def runFuel : Nat → State → RunRes
  | 0, _ => .fuelOut
  | n + 1, s =>
    match step s with
    | .err e => .err e
    | .panicked => .panicked
    | .next true s' => runFuel n s'
    | .next false s' => .out s'.output

/-! ## Specification-side definitions

The definitions below do not come from the Rust source; they state the
specification's notions (balanced bracket matching, sequences of stream
operations) that the theorems relate to the source functions above. -/

/-- Bracket weight of a character: `+1` for `'['`, `-1` for `']'`, `0`
for anything else. -/
def brkt (c : Char) : Int :=
  if c = '[' then 1 else if c = ']' then -1 else 0

/-- Sum of the bracket weights of the `len` characters of `code` starting
at position `start` (out-of-range positions read as the neutral `' '`). -/
def balSeg (code : List Char) (start : Nat) : Nat → Int
  | 0 => 0
  | len + 1 => brkt (code.getD start ' ') + balSeg code (start + 1) len

/-- Standard balanced bracket pairing: the `'['` at index `i` matches the
`']'` at index `j` when the characters strictly between them have bracket
weight summing to zero and no prefix of that span dips below zero. -/
def isMatch (code : List Char) (i j : Nat) : Prop :=
  i < j ∧ j < code.length ∧ code.getD i ' ' = '[' ∧ code.getD j ' ' = ']' ∧
    balSeg code (i + 1) (j - i - 1) = 0 ∧
    ∀ m, m ≤ j - i - 1 → 0 ≤ balSeg code (i + 1) m

instance (code : List Char) (i j : Nat) : Decidable (isMatch code i j) := by
  unfold isMatch; infer_instance

/-- Push a sequence of bits through `push_output_bit`, stopping at the
first panic. -/
def pushBits : State → List Bool → Option State
  | s, [] => some s
  | s, b :: bs =>
    match push_output_bit s b with
    | none => none
    | some s' => pushBits s' bs

/-- Perform a sequence of tape writes, each at an explicitly given head
position, through `set_bit`. -/
def applyWrites : State → List (Int × Bool) → Option State
  | s, [] => some s
  | s, (p, v) :: ws =>
    match set_bit { s with pos := p } v with
    | none => none
    | some s' => applyWrites s' ws

/-- Read `n` successive bits through `get_input_bit`, collecting them in
order. -/
def readBits : State → Nat → Except BfError (List Bool × State)
  | s, 0 => .ok ([], s)
  | s, n + 1 =>
    match get_input_bit s with
    | .error e => .error e
    | .ok (b, s') =>
      match readBits s' n with
      | .error e => .error e
      | .ok (bs, s'') => .ok (b :: bs, s'')

/-- The canonical 9-instruction-alphabet "Hello, world!" Boolfuck program
(the `code` string of the `test_run` test, src/lib.rs:289). -/
def helloSrc : String :=
  ";;;+;+;;+;+;+;+;+;+;;+;;+;;;+;;+;+;;+;;;+;;+;+;;+;+;;;;+;+;;+;;;+;;+;+;+;;;;;;;+;+;;+;;;+;+;;;+;+;;;;+;+;;+;;+;+;;+;;;+;;;+;;+;+;;+;;;+;+;;+;;+;+;+;;;;+;+;;;+;+;+;"

/-! ## Lemmas about bracket-weight sums -/

lemma balSeg_add (code : List Char) (s a b : Nat) :
    balSeg code s (a + b) = balSeg code s a + balSeg code (s + a) b := by
  induction a generalizing s with
  | zero => simp [balSeg]
  | succ a ih =>
    rw [show a + 1 + b = (a + b) + 1 from by omega]
    simp only [balSeg]
    rw [ih (s + 1), show s + 1 + a = s + (a + 1) from by omega]
    ring

lemma balSeg_back (code : List Char) (s n : Nat) :
    balSeg code s (n + 1) = balSeg code s n + brkt (code.getD (s + n) ' ') := by
  rw [balSeg_add code s n 1]
  simp [balSeg]

lemma getD_ne_blank_lt (code : List Char) (x : Nat) (c : Char) (hc : c ≠ ' ')
    (h : code.getD x ' ' = c) : x < code.length := by
  by_contra hx
  push_neg at hx
  rw [List.getD_eq_default _ _ hx] at h
  exact hc h.symm

/-! ## Soundness of the bracket scans -/

lemma scanF_unfold (code : List Char) (idx count : Nat) (h : ¬ code.length ≤ idx + 1) :
    scanF code idx count =
      if code.getD (idx + 1) ' ' = '[' then scanF code (idx + 1) (count + 1)
      else if code.getD (idx + 1) ' ' = ']' then
        if 0 < count then scanF code (idx + 1) (count - 1) else some (idx + 1)
      else scanF code (idx + 1) count := by
  rw [scanF]
  simp only [← List.getD_eq_getElem?_getD]
  rw [if_neg h]

lemma scanB_unfold (code : List Char) (idx count : Nat) (h : ¬ idx = 0) :
    scanB code idx count =
      if code.getD (idx - 1) ' ' = ']' then scanB code (idx - 1) (count + 1)
      else if code.getD (idx - 1) ' ' = '[' then
        if 0 < count then scanB code (idx - 1) (count - 1) else some (idx - 1)
      else scanB code (idx - 1) count := by
  rw [scanB]
  simp only [← List.getD_eq_getElem?_getD]
  rw [if_neg h]

lemma scanF_sound (code : List Char) (j : Nat) (hj : j < code.length)
    (hcj : code.getD j ' ' = ']') :
    ∀ d idx count : Nat, j = idx + d + 1 →
      (count : Int) + balSeg code (idx + 1) d = 0 →
      (∀ m, m ≤ d → 0 ≤ (count : Int) + balSeg code (idx + 1) m) →
      scanF code idx count = some j := by
  intro d
  induction d with
  | zero =>
    intro idx count hje hbal _
    simp only [balSeg, add_zero] at hbal
    have hc0 : count = 0 := by omega
    subst hc0
    have hcj' : code.getD (idx + 1) ' ' = ']' := by
      rw [show idx + 1 = j from by omega]; exact hcj
    rw [scanF_unfold code idx 0 (by omega), if_neg (by rw [hcj']; decide), if_pos hcj',
      if_neg (by omega)]
    exact congrArg some (by omega)
  | succ d ih =>
    intro idx count hje hbal hpre
    rw [scanF_unfold code idx count (by omega)]
    have hpeel : balSeg code (idx + 1) (d + 1) =
        brkt (code.getD (idx + 1) ' ') + balSeg code (idx + 1 + 1) d := by
      simp only [balSeg]
    have hpre' : ∀ m, m ≤ d →
        0 ≤ (count : Int) + (brkt (code.getD (idx + 1) ' ') + balSeg code (idx + 1 + 1) m) := by
      intro m hm
      have h := hpre (m + 1) (by omega)
      simp only [balSeg] at h
      exact h
    by_cases hc1 : code.getD (idx + 1) ' ' = '['
    · have hb : brkt (code.getD (idx + 1) ' ') = 1 := by
        simp only [brkt]; rw [if_pos hc1]
      rw [if_pos hc1]
      refine ih (idx + 1) (count + 1) (by omega) ?_ ?_
      · rw [hpeel, hb] at hbal
        push_cast
        omega
      · intro m hm
        have h := hpre' m hm
        rw [hb] at h
        push_cast
        omega
    · by_cases hc2 : code.getD (idx + 1) ' ' = ']'
      · have hb : brkt (code.getD (idx + 1) ' ') = -1 := by
          simp only [brkt]; rw [if_neg hc1, if_pos hc2]
        have hcount : 1 ≤ count := by
          have h := hpre' 0 (by omega)
          simp only [balSeg, add_zero] at h
          rw [hb] at h
          omega
        rw [if_neg hc1, if_pos hc2, if_pos (by omega : 0 < count)]
        refine ih (idx + 1) (count - 1) (by omega) ?_ ?_
        · rw [hpeel, hb] at hbal
          rw [show ((count - 1 : Nat) : Int) = (count : Int) - 1 from by omega]
          omega
        · intro m hm
          have h := hpre' m hm
          rw [hb] at h
          rw [show ((count - 1 : Nat) : Int) = (count : Int) - 1 from by omega]
          omega
      · have hb : brkt (code.getD (idx + 1) ' ') = 0 := by
          simp only [brkt]; rw [if_neg hc1, if_neg hc2]
        rw [if_neg hc1, if_neg hc2]
        refine ih (idx + 1) count (by omega) ?_ ?_
        · rw [hpeel, hb] at hbal
          omega
        · intro m hm
          have h := hpre' m hm
          rw [hb] at h
          omega

lemma scanB_sound (code : List Char) (i : Nat) (hci : code.getD i ' ' = '[') :
    ∀ d count : Nat, (count : Int) = balSeg code (i + 1) d →
      (∀ m, m ≤ d → 0 ≤ balSeg code (i + 1) m) →
      scanB code (i + 1 + d) count = some i := by
  intro d
  induction d with
  | zero =>
    intro count hbal _
    simp only [balSeg] at hbal
    have hc0 : count = 0 := by omega
    subst hc0
    rw [scanB_unfold code (i + 1 + 0) 0 (by omega),
      show i + 1 + 0 - 1 = i from by omega,
      if_neg (by rw [hci]; decide), if_pos hci, if_neg (by omega)]
  | succ d ih =>
    intro count hbal hpre
    rw [scanB_unfold code (i + 1 + (d + 1)) count (by omega),
      show i + 1 + (d + 1) - 1 = i + 1 + d from by omega]
    have hback := balSeg_back code (i + 1) d
    by_cases hc1 : code.getD (i + 1 + d) ' ' = ']'
    · have hb : brkt (code.getD (i + 1 + d) ' ') = -1 := by
        simp only [brkt]; rw [if_neg (by rw [hc1]; decide), if_pos hc1]
      rw [if_pos hc1]
      refine ih (count + 1) ?_ (fun m hm => hpre m (by omega))
      rw [hb] at hback
      push_cast
      omega
    · by_cases hc2 : code.getD (i + 1 + d) ' ' = '['
      · have hb : brkt (code.getD (i + 1 + d) ' ') = 1 := by
          simp only [brkt]; rw [if_pos hc2]
        rw [hb] at hback
        have hd : 0 ≤ balSeg code (i + 1) d := hpre d (by omega)
        have hcnt : 0 < count := by omega
        rw [if_neg hc1, if_pos hc2, if_pos hcnt]
        refine ih (count - 1) ?_ (fun m hm => hpre m (by omega))
        rw [show ((count - 1 : Nat) : Int) = (count : Int) - 1 from by omega]
        omega
      · have hb : brkt (code.getD (i + 1 + d) ' ') = 0 := by
          simp only [brkt]; rw [if_neg hc2, if_neg hc1]
        rw [hb] at hback
        rw [if_neg hc1, if_neg hc2]
        refine ih count ?_ (fun m hm => hpre m (by omega))
        omega

/-! ## Completeness of the bracket scans -/

lemma scanF_complete (code : List Char) :
    ∀ n idx count j : Nat, code.length - idx ≤ n → scanF code idx count = some j →
      idx < j ∧ j < code.length ∧ code.getD j ' ' = ']' ∧
      balSeg code (idx + 1) (j - idx - 1) = -(count : Int) ∧
      ∀ m, m ≤ j - idx - 1 → 0 ≤ (count : Int) + balSeg code (idx + 1) m := by
  intro n
  induction n with
  | zero =>
    intro idx count j hn h
    rw [scanF, if_pos (by omega)] at h
    exact absurd h (by simp)
  | succ n ihn =>
    intro idx count j hn h
    by_cases hedge : code.length ≤ idx + 1
    · rw [scanF, if_pos hedge] at h
      exact absurd h (by simp)
    · rw [scanF_unfold code idx count hedge] at h
      by_cases hc1 : code.getD (idx + 1) ' ' = '['
      · have hb : brkt (code.getD (idx + 1) ' ') = 1 := by
          simp only [brkt]; rw [if_pos hc1]
        rw [if_pos hc1] at h
        obtain ⟨h1, h2, h3, h4, h5⟩ := ihn (idx + 1) (count + 1) j (by omega) h
        rw [show j - (idx + 1) - 1 = j - idx - 2 from by omega] at h4
        refine ⟨by omega, h2, h3, ?_, ?_⟩
        · rw [show j - idx - 1 = (j - idx - 2) + 1 from by omega]
          simp only [balSeg]
          rw [hb]
          push_cast at h4 ⊢
          omega
        · intro m hm
          cases m with
          | zero => simp only [balSeg, add_zero]; omega
          | succ m' =>
            have hh := h5 m' (by omega)
            simp only [balSeg]
            rw [hb]
            push_cast at hh ⊢
            omega
      · by_cases hc2 : code.getD (idx + 1) ' ' = ']'
        · have hb : brkt (code.getD (idx + 1) ' ') = -1 := by
            simp only [brkt]; rw [if_neg hc1, if_pos hc2]
          rw [if_neg hc1, if_pos hc2] at h
          by_cases hcnt : 0 < count
          · rw [if_pos hcnt] at h
            obtain ⟨h1, h2, h3, h4, h5⟩ := ihn (idx + 1) (count - 1) j (by omega) h
            rw [show j - (idx + 1) - 1 = j - idx - 2 from by omega] at h4
            rw [show ((count - 1 : Nat) : Int) = (count : Int) - 1 from by omega] at h4 h5
            refine ⟨by omega, h2, h3, ?_, ?_⟩
            · rw [show j - idx - 1 = (j - idx - 2) + 1 from by omega]
              simp only [balSeg]
              rw [hb]
              omega
            · intro m hm
              cases m with
              | zero => simp only [balSeg, add_zero]; omega
              | succ m' =>
                have hh := h5 m' (by omega)
                simp only [balSeg]
                rw [hb]
                omega
          · rw [if_neg hcnt] at h
            have hj : j = idx + 1 := by
              injection h with h'
              omega
            have hc0 : count = 0 := by omega
            subst hj hc0
            refine ⟨by omega, by omega, hc2, ?_, ?_⟩
            · rw [show idx + 1 - idx - 1 = 0 from by omega]
              simp [balSeg]
            · intro m hm
              rw [show m = 0 from by omega]
              simp [balSeg]
        · have hb : brkt (code.getD (idx + 1) ' ') = 0 := by
            simp only [brkt]; rw [if_neg hc1, if_neg hc2]
          rw [if_neg hc1, if_neg hc2] at h
          obtain ⟨h1, h2, h3, h4, h5⟩ := ihn (idx + 1) count j (by omega) h
          rw [show j - (idx + 1) - 1 = j - idx - 2 from by omega] at h4
          refine ⟨by omega, h2, h3, ?_, ?_⟩
          · rw [show j - idx - 1 = (j - idx - 2) + 1 from by omega]
            simp only [balSeg]
            rw [hb]
            omega
          · intro m hm
            cases m with
            | zero => simp only [balSeg, add_zero]; omega
            | succ m' =>
              have hh := h5 m' (by omega)
              simp only [balSeg]
              rw [hb]
              omega

lemma scanB_complete (code : List Char) :
    ∀ idx count p : Nat, scanB code idx count = some p →
      p < idx ∧ code.getD p ' ' = '[' ∧
      balSeg code (p + 1) (idx - p - 1) = (count : Int) ∧
      ∀ q, p < q → q < idx → balSeg code (q + 1) (idx - q - 1) ≤ (count : Int) := by
  intro idx
  induction idx using Nat.strong_induction_on with
  | _ idx ih =>
    intro count p h
    by_cases h0 : idx = 0
    · subst h0
      rw [scanB, if_pos rfl] at h
      exact absurd h (by simp)
    · rw [scanB_unfold code idx count h0] at h
      by_cases hc1 : code.getD (idx - 1) ' ' = ']'
      · have hb : brkt (code.getD (idx - 1) ' ') = -1 := by
          simp only [brkt]; rw [if_neg (by rw [hc1]; decide), if_pos hc1]
        rw [if_pos hc1] at h
        obtain ⟨h1, h2, h3, h4⟩ := ih (idx - 1) (by omega) (count + 1) p h
        rw [show idx - 1 - p - 1 = idx - p - 2 from by omega] at h3
        refine ⟨by omega, h2, ?_, ?_⟩
        · rw [show idx - p - 1 = (idx - p - 2) + 1 from by omega, balSeg_back,
            show p + 1 + (idx - p - 2) = idx - 1 from by omega, hb]
          push_cast at h3 ⊢
          omega
        · intro q hq1 hq2
          by_cases hq3 : q < idx - 1
          · have hh := h4 q hq1 hq3
            rw [show idx - 1 - q - 1 = idx - q - 2 from by omega] at hh
            rw [show idx - q - 1 = (idx - q - 2) + 1 from by omega, balSeg_back,
              show q + 1 + (idx - q - 2) = idx - 1 from by omega, hb]
            push_cast at hh ⊢
            omega
          · rw [show idx - q - 1 = 0 from by omega]
            simp only [balSeg]
            omega
      · by_cases hc2 : code.getD (idx - 1) ' ' = '['
        · have hb : brkt (code.getD (idx - 1) ' ') = 1 := by
            simp only [brkt]; rw [if_pos hc2]
          rw [if_neg hc1, if_pos hc2] at h
          by_cases hcnt : 0 < count
          · rw [if_pos hcnt] at h
            obtain ⟨h1, h2, h3, h4⟩ := ih (idx - 1) (by omega) (count - 1) p h
            rw [show idx - 1 - p - 1 = idx - p - 2 from by omega] at h3
            rw [show ((count - 1 : Nat) : Int) = (count : Int) - 1 from by omega] at h3 h4
            refine ⟨by omega, h2, ?_, ?_⟩
            · rw [show idx - p - 1 = (idx - p - 2) + 1 from by omega, balSeg_back,
                show p + 1 + (idx - p - 2) = idx - 1 from by omega, hb]
              omega
            · intro q hq1 hq2
              by_cases hq3 : q < idx - 1
              · have hh := h4 q hq1 hq3
                rw [show idx - 1 - q - 1 = idx - q - 2 from by omega] at hh
                rw [show idx - q - 1 = (idx - q - 2) + 1 from by omega, balSeg_back,
                  show q + 1 + (idx - q - 2) = idx - 1 from by omega, hb]
                omega
              · rw [show idx - q - 1 = 0 from by omega]
                simp only [balSeg]
                omega
          · rw [if_neg hcnt] at h
            have hp : p = idx - 1 := by
              injection h with h'
              omega
            have hc0 : count = 0 := by omega
            subst hp hc0
            refine ⟨by omega, hc2, ?_, ?_⟩
            · rw [show idx - (idx - 1) - 1 = 0 from by omega]
              simp [balSeg]
            · intro q hq1 hq2
              exact absurd hq2 (by omega)
        · have hb : brkt (code.getD (idx - 1) ' ') = 0 := by
            simp only [brkt]; rw [if_neg hc2, if_neg hc1]
          rw [if_neg hc1, if_neg hc2] at h
          obtain ⟨h1, h2, h3, h4⟩ := ih (idx - 1) (by omega) count p h
          rw [show idx - 1 - p - 1 = idx - p - 2 from by omega] at h3
          refine ⟨by omega, h2, ?_, ?_⟩
          · rw [show idx - p - 1 = (idx - p - 2) + 1 from by omega, balSeg_back,
              show p + 1 + (idx - p - 2) = idx - 1 from by omega, hb]
            omega
          · intro q hq1 hq2
            by_cases hq3 : q < idx - 1
            · have hh := h4 q hq1 hq3
              rw [show idx - 1 - q - 1 = idx - q - 2 from by omega] at hh
              rw [show idx - q - 1 = (idx - q - 2) + 1 from by omega, balSeg_back,
                show q + 1 + (idx - q - 2) = idx - 1 from by omega, hb]
              omega
            · rw [show idx - q - 1 = 0 from by omega]
              simp only [balSeg]
              omega

/-! ## Claim C3 -/

/-- C3: for every program whose `'['` at index `i` matches the `']'` at
index `j` under standard balanced nesting, `get_matching_bracket` invoked
at `i` with bracket character `'['` returns `j + 1` (one past the
closer), and invoked at `j` with `']'` returns exactly `i` (the opener);
the scan skips nested same-type brackets via the counter started at 0. -/
theorem matching_bracket_correct (code : List Char) (i j : Nat) (h : isMatch code i j) :
    get_matching_bracket code i '[' = .ok (j + 1) ∧
    get_matching_bracket code j ']' = .ok i := by
  obtain ⟨hij, hjlen, hci, hcj, hbal, hpre⟩ := h
  constructor
  · have hs : scanF code i 0 = some j := by
      refine scanF_sound code j hjlen hcj (j - i - 1) i 0 (by omega) ?_ ?_
      · push_cast
        omega
      · intro m hm
        have := hpre m hm
        push_cast
        omega
    rw [get_matching_bracket, if_pos rfl, hs]
  · have hs : scanB code j 0 = some i := by
      have hb := scanB_sound code i hci (j - i - 1) 0 (by push_cast; omega) hpre
      rw [show i + 1 + (j - i - 1) = j from by omega] at hb
      exact hb
    rw [get_matching_bracket, if_neg (by decide), if_pos rfl, hs]

/-- Witness for C3: in the program `"[[][]]"` the outer `'['` at index 0
matches the `']'` at index 5, and the matcher returns 6 (one past it)
forward and 0 backward, as the specification's nesting example states. -/
theorem matching_bracket_correct_witness :
    get_matching_bracket "[[][]]".toList 0 '[' = .ok 6 ∧
    get_matching_bracket "[[][]]".toList 5 ']' = .ok 0 :=
  matching_bracket_correct "[[][]]".toList 0 5 (by decide)

/-! ## Claim C4 -/

/-- C4: when the bracket at the start index has no matching partner, the
bracket matcher fails with the `UnbalancedBrackets` error for its
direction — "reached end of code" forward, "reached start of code"
backward; in particular running the one-character program `"["` with
empty input produces that failure (no out-of-bounds access, no
divergence). -/
theorem unbalanced_bracket_fails :
    (∀ (code : List Char) (i : Nat), code.getD i ' ' = '[' → (¬ ∃ j, isMatch code i j) →
      get_matching_bracket code i '[' = .error (.reachedEndOfCode ']')) ∧
    (∀ (code : List Char) (j : Nat), code.getD j ' ' = ']' → (¬ ∃ i, isMatch code i j) →
      get_matching_bracket code j ']' = .error (.reachedStartOfCode '[')) ∧
    runFuel 1 (new ['['] []) = .err (.reachedEndOfCode ']') := by
  refine ⟨?_, ?_, ?_⟩
  · intro code i hci hno
    rw [get_matching_bracket, if_pos rfl]
    cases hs : scanF code i 0 with
    | none => rfl
    | some j =>
      exfalso
      obtain ⟨h1, h2, h3, h4, h5⟩ := scanF_complete code code.length i 0 j (by omega) hs
      exact hno ⟨j, h1, h2, hci, h3, by simpa using h4,
        fun m hm => by simpa using h5 m hm⟩
  · intro code j hcj hno
    rw [get_matching_bracket, if_neg (by decide), if_pos rfl]
    cases hs : scanB code j 0 with
    | none => rfl
    | some p =>
      exfalso
      obtain ⟨h1, h2, h3, h4⟩ := scanB_complete code j 0 p hs
      have hjlen : j < code.length := getD_ne_blank_lt code j ']' (by decide) hcj
      have h3' : balSeg code (p + 1) (j - p - 1) = 0 := by simpa using h3
      refine hno ⟨p, h1, hjlen, h2, hcj, h3', ?_⟩
      intro m hm
      cases m with
      | zero => simp [balSeg]
      | succ m' =>
        have hq := h4 (p + m' + 1) (by omega) (by omega)
        have hadd := balSeg_add code (p + 1) (m' + 1) (j - p - 1 - (m' + 1))
        rw [show m' + 1 + (j - p - 1 - (m' + 1)) = j - p - 1 from by omega,
          show p + 1 + (m' + 1) = p + m' + 1 + 1 from by omega,
          show j - p - 1 - (m' + 1) = j - (p + m' + 1) - 1 from by omega] at hadd
        simp only [Nat.cast_zero] at hq
        omega
  · simp [runFuel, step, get_bit, get_matching_bracket, scanF, new]

/-- Witness for C4: the matcher fails on the partnerless `'['` of the
program `"["` (forward) and on the partnerless `']'` of the program `"]"`
(backward). -/
theorem unbalanced_bracket_fails_witness :
    get_matching_bracket ['['] 0 '[' = .error (.reachedEndOfCode ']') ∧
    get_matching_bracket [']'] 0 ']' = .error (.reachedStartOfCode '[') :=
  ⟨unbalanced_bracket_fails.1 ['['] 0 (by decide)
      (fun ⟨_, hj⟩ => by
        have h1 := hj.1
        have h2 := hj.2.1
        simp only [List.length_singleton] at h2
        omega),
   unbalanced_bracket_fails.2.1 [']'] 0 (by decide)
      (fun ⟨_, hi⟩ => absurd hi.1 (by omega))⟩

/-! ## Claim C1 -/

/-- C1 (code bug): `push_output_bit` extends the buffer only when the
pushed bit is `true`, not "regardless of whether b is true or false" as
specified.  Consequently (first conjunct) pushing sixteen `false` bits
and then a `true` bit panics at the
`expect("Failed to push enough output u8s")`, because only one zero byte
is appended for a two-byte gap; (second conjunct) after nine `false`
pushes the buffer is still one byte, so it does not cover the nine bits
pushed so far; and (third conjunct) the panic is reachable from `run` via
the program of sixteen `';'` then `"+;"` on empty input. -/
theorem output_buffer_deferred_append_bug :
    pushBits (new [] []) (List.replicate 16 false ++ [true]) = none ∧
    (pushBits (new [] []) (List.replicate 9 false)).map
        (fun t => (t.output, t.output_bit)) = some ([0], 9) ∧
    runFuel 20 (new (List.replicate 16 ';' ++ ['+', ';']) []) = .panicked := by
  decide

/-! ## Claim C2 -/

/-- Counterexample to C2 as stated: a `step` made with the program
counter at (or beyond) the program's length returns the error
"Jumped beyond end of code", not a successful halt; in particular `run`
on the empty program fails at its very first step instead of terminating
successfully. -/
theorem step_past_end_is_error_cex :
    step (new [] []) = .err (.jumpedBeyondEnd 0) ∧
    runFuel 1 (new [] []) = .err (.jumpedBeyondEnd 0) := by
  decide

/-- C2 (amended): a call to `step` made while the program counter is at
or beyond the program's length (before dispatch) reports the failure
`jumpedBeyondEnd`, and `run` on the empty program fails with that error
rather than terminating successfully.  (For nonempty programs a
successful halt is instead signalled by the step that moves the counter
to or past the end returning `next false`.) -/
theorem step_past_end_is_error :
    (∀ s : State, s.code.length ≤ s.code_index →
      step s = .err (.jumpedBeyondEnd s.code_index)) ∧
    runFuel 1 (new [] []) = .err (.jumpedBeyondEnd 0) := by
  constructor
  · intro s hs
    have h : s.code[s.code_index]? = none := List.getElem?_eq_none hs
    simp [step, h]
  · decide

/-- Witness for C2 (amended), at the empty program's initial state. -/
theorem step_past_end_is_error_witness :
    step (new [] []) = .err (.jumpedBeyondEnd 0) :=
  step_past_end_is_error.1 (new [] []) (by decide)

/-! ## Claim C7 -/

/-- C7: executing a `','` instruction when the input's bit cursor
requires a byte beyond the supplied input yields the `InputExhausted`
failure (never a default `false` bit); one failing step makes the whole
run return that failure immediately, so no further instruction executes;
in particular the program `","` on empty input fails this way. -/
theorem input_exhausted_aborts :
    (∀ s : State, s.code.get? s.code_index = some ',' →
      s.input.get? (s.input_bit / 8) = none →
      step s = .err (.inputExhausted s.input_bit)) ∧
    (∀ (n : Nat) (s : State) (e : BfError), step s = .err e → runFuel (n + 1) s = .err e) ∧
    runFuel 1 (new [','] []) = .err (.inputExhausted 0) := by
  refine ⟨?_, ?_, ?_⟩
  · intro s h1 h2
    rw [List.get?_eq_getElem?] at h1 h2
    simp [step, h1, get_input_bit, h2]
  · intro n s e h
    simp [runFuel, h]
  · decide

/-- Witness for C7, on the program `","` with empty input. -/
theorem input_exhausted_aborts_witness :
    step (new [','] []) = .err (.inputExhausted 0) ∧
    runFuel 3 (new [','] []) = .err (.inputExhausted 0) :=
  ⟨input_exhausted_aborts.1 (new [','] []) (by decide) (by decide),
   input_exhausted_aborts.2.1 2 (new [','] []) (.inputExhausted 0)
     (input_exhausted_aborts.1 (new [','] []) (by decide) (by decide))⟩

/-! ## Claim C9 -/

set_option maxRecDepth 10000 in
/-- C9: running the canonical 9-instruction-alphabet "Hello, world!"
Boolfuck program (163 `'+'`/`';'` characters, empty input) terminates
successfully with output bytes exactly the ASCII encoding of
"Hello, world!" followed by a newline. -/
theorem hello_world_run :
    runFuel 170 (new helloSrc.toList []) =
      .out [72, 101, 108, 108, 111, 44, 32, 119, 111, 114, 108, 100, 33, 10] := by
  decide

/-! ## Tape lemmas (claim C5) -/

lemma length_get_or_extend (vec : List Bool) (index : Nat) :
    index < (get_or_extend vec index).length := by
  simp only [get_or_extend]
  split_ifs with h
  · simp only [List.length_append, List.length_replicate]
    omega
  · omega

lemma getD_get_or_extend (vec : List Bool) (index j : Nat) :
    (get_or_extend vec index).getD j false = vec.getD j false := by
  simp only [get_or_extend]
  split_ifs with h
  · rw [List.getD_eq_getElem?_getD, List.getD_eq_getElem?_getD]
    by_cases hj : j < vec.length
    · rw [List.getElem?_append_left hj]
    · push_neg at hj
      rw [List.getElem?_append_right hj, List.getElem?_replicate,
        List.getElem?_eq_none hj]
      split <;> rfl
  · rfl

lemma getD_set_self (l : List Bool) (i : Nat) (v : Bool) (h : i < l.length) :
    (l.set i v).getD i false = v := by
  rw [List.getD_eq_getElem?_getD, List.getElem?_set_self h]
  rfl

lemma getD_set_ne (l : List Bool) (i j : Nat) (v : Bool) (h : i ≠ j) :
    (l.set i v).getD j false = l.getD j false := by
  rw [List.getD_eq_getElem?_getD, List.getD_eq_getElem?_getD, List.getElem?_set_ne h]

lemma set_bit_eq_pos (s : State) (v : Bool) (hp : 0 ≤ s.pos) :
    set_bit s v = some { s with
      pos_tape := (get_or_extend s.pos_tape s.pos.toNat).set s.pos.toNat v } := by
  simp [set_bit, hp, length_get_or_extend]

lemma set_bit_eq_neg (s : State) (v : Bool) (hp : ¬ 0 ≤ s.pos) :
    set_bit s v = some { s with
      neg_tape := (get_or_extend s.neg_tape ((-s.pos).toNat - 1)).set
        ((-s.pos).toNat - 1) v } := by
  simp [set_bit, hp, length_get_or_extend]

lemma set_bit_isSome (s : State) (v : Bool) : ∃ s', set_bit s v = some s' := by
  by_cases hp : 0 ≤ s.pos
  · exact ⟨_, set_bit_eq_pos s v hp⟩
  · exact ⟨_, set_bit_eq_neg s v hp⟩

lemma get_bit_set_bit (s : State) (v : Bool) (s' : State) (h : set_bit s v = some s') :
    get_bit s' = v := by
  by_cases hp : 0 ≤ s.pos
  · rw [set_bit_eq_pos s v hp] at h
    injection h with h
    subst h
    rw [get_bit, if_pos hp]
    exact getD_set_self _ _ _ (length_get_or_extend _ _)
  · rw [set_bit_eq_neg s v hp] at h
    injection h with h
    subst h
    rw [get_bit, if_neg hp]
    exact getD_set_self _ _ _ (length_get_or_extend _ _)

lemma get_bit_set_bit_ne (s : State) (v : Bool) (s' : State) (q : Int)
    (h : set_bit s v = some s') (hne : q ≠ s.pos) :
    get_bit { s' with pos := q } = get_bit { s with pos := q } := by
  by_cases hp : 0 ≤ s.pos
  · rw [set_bit_eq_pos s v hp] at h
    injection h with h
    subst h
    by_cases hq : 0 ≤ q
    · rw [get_bit, get_bit, if_pos hq, if_pos hq]
      have hix : s.pos.toNat ≠ q.toNat := by omega
      rw [getD_set_ne _ _ _ _ hix, getD_get_or_extend]
    · rw [get_bit, get_bit, if_neg hq, if_neg hq]
  · rw [set_bit_eq_neg s v hp] at h
    injection h with h
    subst h
    by_cases hq : 0 ≤ q
    · rw [get_bit, get_bit, if_pos hq, if_pos hq]
    · rw [get_bit, get_bit, if_neg hq, if_neg hq]
      have hix : (-s.pos).toNat - 1 ≠ (-q).toNat - 1 := by omega
      rw [getD_set_ne _ _ _ _ hix, getD_get_or_extend]

lemma set_bit_pos_eq (s : State) (v : Bool) (s' : State) (h : set_bit s v = some s') :
    s'.pos = s.pos := by
  by_cases hp : 0 ≤ s.pos
  · rw [set_bit_eq_pos s v hp] at h
    injection h with h
    subst h
    rfl
  · rw [set_bit_eq_neg s v hp] at h
    injection h with h
    subst h
    rfl

lemma set_pos_eta (s : State) (p : Int) (h : s.pos = p) : { s with pos := p } = s := by
  cases s
  simp only at h
  subst h
  rfl

lemma applyWrites_frame : ∀ (ws : List (Int × Bool)) (s s' : State) (p : Int),
    applyWrites s ws = some s' → p ∉ ws.map Prod.fst →
    get_bit { s' with pos := p } = get_bit { s with pos := p } := by
  intro ws
  induction ws with
  | nil =>
    intro s s' p h _
    injection h with h
    subst h
    rfl
  | cons w ws ih =>
    intro s s' p h hp
    obtain ⟨wp, wv⟩ := w
    simp only [applyWrites] at h
    simp only [List.map_cons, List.mem_cons, not_or] at hp
    cases hsb : set_bit { s with pos := wp } wv with
    | none => rw [hsb] at h; exact absurd h (by simp)
    | some s₁ =>
      rw [hsb] at h
      have h1 := get_bit_set_bit_ne { s with pos := wp } wv s₁ p hsb hp.1
      rw [ih s₁ s' p h hp.2, h1]

/-! ## Claim C5 -/

/-- C5: for every head position (positive, zero or negative) and bit
value, a write never fails (first conjunct: `set_bit` always returns
`some`, i.e. the internal `expect` cannot fire); reading right after a
write at the same (unchanged) position returns the written value (second
conjunct); a value written at `p` survives any sequence of intervening
writes at positions other than `p`, so reading `p` with no intervening
write *at `p`* still returns it (third conjunct); a later write at the
position overrides an earlier one (fourth conjunct: write `true` then
`false` reads `false`); and a position never written among any sequence
of writes from a fresh state reads `false` (fifth conjunct); reads are
total by construction. -/
theorem tape_read_write :
    (∀ (s : State) (v : Bool), ∃ s', set_bit s v = some s') ∧
    (∀ (s : State) (v : Bool) (s' : State), set_bit s v = some s' → get_bit s' = v) ∧
    (∀ (s : State) (p : Int) (v : Bool) (s₁ s₂ : State) (ws : List (Int × Bool)),
      set_bit { s with pos := p } v = some s₁ → applyWrites s₁ ws = some s₂ →
      p ∉ ws.map Prod.fst → get_bit { s₂ with pos := p } = v) ∧
    (∀ (s s₁ s₂ : State), set_bit s true = some s₁ → set_bit s₁ false = some s₂ →
      get_bit s₂ = false) ∧
    (∀ (c : List Char) (inp : List Nat) (ws : List (Int × Bool)) (s' : State) (p : Int),
      applyWrites (new c inp) ws = some s' → p ∉ ws.map Prod.fst →
      get_bit { s' with pos := p } = false) := by
  refine ⟨set_bit_isSome, get_bit_set_bit, ?_, ?_, ?_⟩
  · intro s p v s₁ s₂ ws h1 h2 hp
    rw [applyWrites_frame ws s₁ s₂ p h2 hp]
    rw [set_pos_eta s₁ p (set_bit_pos_eq { s with pos := p } v s₁ h1)]
    exact get_bit_set_bit { s with pos := p } v s₁ h1
  · intro s s₁ s₂ _ h2
    exact get_bit_set_bit s₁ false s₂ h2
  · intro c inp ws s' p h hp
    rw [applyWrites_frame ws (new c inp) s' p h hp]
    by_cases hq : 0 ≤ p <;> simp [get_bit, new, hq]

/-- Witness for C5: writing `true` at position 0 of a fresh state then
reading it yields `true`; the value at 0 survives an intervening write
at the distinct position `-2`; overwriting with `false` yields `false`;
and after the single write at 0, the never-written position `-3` reads
`false`. -/
theorem tape_read_write_witness :
    get_bit { new [] [] with pos_tape := [true] } = true ∧
    get_bit { { new [] [] with pos := -2, pos_tape := [true], neg_tape := [false, true] } with pos := 0 } = true ∧
    get_bit { new [] [] with pos_tape := [false] } = false ∧
    get_bit { { new [] [] with pos_tape := [true] } with pos := -3 } = false :=
  ⟨tape_read_write.2.1 (new [] []) true { new [] [] with pos_tape := [true] } (by decide),
   tape_read_write.2.2.1 (new [] []) 0 true { new [] [] with pos_tape := [true] }
     { new [] [] with pos := -2, pos_tape := [true], neg_tape := [false, true] }
     [(-2, true)] (by decide) (by decide) (by decide),
   tape_read_write.2.2.2.1 (new [] []) { new [] [] with pos_tape := [true] }
     { new [] [] with pos_tape := [false] } (by decide) (by decide),
   tape_read_write.2.2.2.2 [] [] [(0, true)] { new [] [] with pos_tape := [true] } (-3)
     (by decide) (by decide)⟩

/-! ## Claim C6 -/

lemma and_shift_bne (w k : Nat) :
    ((w &&& (1 <<< k)) != 0) = decide ((w >>> k) &&& 1 = 1) := by
  rw [Nat.one_shiftLeft, Nat.and_two_pow, Nat.and_one_is_mod, Nat.shiftRight_eq_div_pow]
  cases h : w.testBit k with
  | false =>
    rw [Nat.testBit_to_div_mod] at h
    simp only [decide_eq_false_iff_not] at h
    simp [h]
  | true =>
    rw [Nat.testBit_to_div_mod] at h
    simp only [decide_eq_true_eq] at h
    simp [h, Nat.pos_iff_ne_zero.mp (Nat.two_pow_pos k)]

/-- C6: successive input-bit reads consume each byte
least-significant-bit first — the read of a byte `w` at bit cursor
`input_bit` yields exactly `(w >>> (input_bit % 8)) &&& 1 = 1` and
advances the cursor by exactly one (first conjunct); in particular
reading the single byte `0b10100011` as 8 bits yields, in order,
`[true, true, false, false, false, true, false, true]` (second
conjunct). -/
theorem input_bits_lsb_first :
    (∀ (s : State) (w : Nat), s.input.get? (s.input_bit / 8) = some w →
      get_input_bit s = .ok (decide ((w >>> (s.input_bit % 8)) &&& 1 = 1),
        { s with input_bit := s.input_bit + 1 })) ∧
    readBits (new [] [0b10100011]) 8 =
      .ok ([true, true, false, false, false, true, false, true],
        { new [] [0b10100011] with input_bit := 8 }) := by
  constructor
  · intro s w h
    rw [List.get?_eq_getElem?] at h
    simp [get_input_bit, h, and_shift_bne]
  · rfl

/-- Witness for C6: the first read from the single input byte
`0b10100011` returns bit 0 (`true`) and moves the cursor to 1. -/
theorem input_bits_lsb_first_witness :
    get_input_bit (new [] [0b10100011]) =
      .ok (true, { new [] [0b10100011] with input_bit := 1 }) :=
  input_bits_lsb_first.1 (new [] [0b10100011]) 0b10100011 (by decide)

/-! ## Inversion of `step` (claims C8 and C10) -/

lemma set_bit_fields (s : State) (v : Bool) (s' : State) (h : set_bit s v = some s') :
    s'.input = s.input ∧ s'.input_bit = s.input_bit ∧ s'.output = s.output ∧
    s'.output_bit = s.output_bit ∧ s'.code = s.code ∧ s'.code_index = s.code_index := by
  by_cases hp : 0 ≤ s.pos
  · rw [set_bit_eq_pos s v hp] at h
    injection h with h
    subst h
    exact ⟨rfl, rfl, rfl, rfl, rfl, rfl⟩
  · rw [set_bit_eq_neg s v hp] at h
    injection h with h
    subst h
    exact ⟨rfl, rfl, rfl, rfl, rfl, rfl⟩

lemma get_input_bit_ok (s : State) (b : Bool) (s₁ : State)
    (h : get_input_bit s = .ok (b, s₁)) :
    s₁ = { s with input_bit := s.input_bit + 1 } := by
  simp only [get_input_bit] at h
  split at h
  · simp only [Except.ok.injEq, Prod.mk.injEq] at h
    exact h.2.symm
  · exact absurd h (by simp)

lemma push_output_bit_fields (s : State) (b : Bool) (s' : State)
    (h : push_output_bit s b = some s') :
    s'.output_bit = s.output_bit + 1 ∧ s.output.length ≤ s'.output.length ∧
    s'.code = s.code ∧ s'.code_index = s.code_index := by
  simp only [push_output_bit] at h
  split_ifs at h with hb hlen
  · split at h
    · exact absurd h (by simp)
    · injection h with h
      subst h
      refine ⟨rfl, ?_, rfl, rfl⟩
      rw [List.length_set, List.length_append]
      omega
  · split at h
    · exact absurd h (by simp)
    · injection h with h
      subst h
      refine ⟨rfl, ?_, rfl, rfl⟩
      rw [List.length_set]
  · injection h with h
    subst h
    exact ⟨rfl, le_refl _, rfl, rfl⟩

lemma finishStep_false (t : State) (b : Bool) (s' : State)
    (h : finishStep false t = .next b s') :
    s' = { t with code_index := t.code_index + 1 } := by
  simp only [finishStep, Bool.false_eq_true, if_false, StepRes.next.injEq] at h
  exact h.2.symm

lemma finishStep_true (t : State) (b : Bool) (s' : State)
    (h : finishStep true t = .next b s') : s' = t := by
  simp only [finishStep, if_true, StepRes.next.injEq] at h
  exact h.2.symm

/-- Full case analysis of a successful `step`: the executed command
exists in the program, and the new state arises from exactly one of the
eight dispatch outcomes. -/
lemma step_next_cases (s : State) (b : Bool) (s' : State) (h : step s = .next b s') :
    ∃ cmd, s.code.get? s.code_index = some cmd ∧
      ((cmd = '+' ∧ ∃ t, set_bit s (!get_bit s) = some t ∧
          s' = { t with code_index := t.code_index + 1 }) ∨
       (cmd = ',' ∧ ∃ bi s₁ t, get_input_bit s = .ok (bi, s₁) ∧ set_bit s₁ bi = some t ∧
          s' = { t with code_index := t.code_index + 1 }) ∨
       (cmd = ';' ∧ ∃ t, push_output_bit s (get_bit s) = some t ∧
          s' = { t with code_index := t.code_index + 1 }) ∨
       (cmd = '<' ∧ s' = { s with pos := s.pos - 1, code_index := s.code_index + 1 }) ∨
       (cmd = '>' ∧ s' = { s with pos := s.pos + 1, code_index := s.code_index + 1 }) ∨
       (cmd = '[' ∧ get_bit s = false ∧ ∃ i,
          get_matching_bracket s.code s.code_index '[' = .ok i ∧
          s' = { s with code_index := i }) ∨
       (cmd = ']' ∧ get_bit s = true ∧ ∃ i,
          get_matching_bracket s.code s.code_index ']' = .ok i ∧
          s' = { s with code_index := i }) ∨
       ((cmd ≠ '+' ∧ cmd ≠ ',' ∧ cmd ≠ ';' ∧ cmd ≠ '<' ∧ cmd ≠ '>' ∧
          ¬(cmd = '[' ∧ get_bit s = false) ∧ ¬(cmd = ']' ∧ get_bit s = true)) ∧
          s' = { s with code_index := s.code_index + 1 })) := by
  unfold step at h
  split at h
  · exact absurd h (by simp)
  · rename_i cmd heq
    refine ⟨cmd, heq, ?_⟩
    by_cases h1 : cmd = '+'
    · rw [if_pos h1] at h
      refine Or.inl ⟨h1, ?_⟩
      split at h
      · exact absurd h (by simp)
      · rename_i t hst
        exact ⟨t, hst, finishStep_false t b s' h⟩
    · rw [if_neg h1] at h
      by_cases h2 : cmd = ','
      · rw [if_pos h2] at h
        refine Or.inr (Or.inl ⟨h2, ?_⟩)
        split at h
        · exact absurd h (by simp)
        · rename_i bi s₁ hgi
          split at h
          · exact absurd h (by simp)
          · rename_i t hst
            exact ⟨bi, s₁, t, hgi, hst, finishStep_false t b s' h⟩
      · rw [if_neg h2] at h
        by_cases h3 : cmd = ';'
        · rw [if_pos h3] at h
          refine Or.inr (Or.inr (Or.inl ⟨h3, ?_⟩))
          split at h
          · exact absurd h (by simp)
          · rename_i t hpu
            exact ⟨t, hpu, finishStep_false t b s' h⟩
        · rw [if_neg h3] at h
          by_cases h4 : cmd = '<'
          · rw [if_pos h4] at h
            exact Or.inr (Or.inr (Or.inr (Or.inl ⟨h4, finishStep_false _ b s' h⟩)))
          · rw [if_neg h4] at h
            by_cases h5 : cmd = '>'
            · rw [if_pos h5] at h
              exact Or.inr (Or.inr (Or.inr (Or.inr (Or.inl
                ⟨h5, finishStep_false _ b s' h⟩))))
            · rw [if_neg h5] at h
              by_cases h6 : cmd = '['
              · rw [if_pos h6] at h
                by_cases hg : get_bit s
                · rw [if_pos hg] at h
                  have hs' := finishStep_false s b s' h
                  refine Or.inr (Or.inr (Or.inr (Or.inr (Or.inr (Or.inr (Or.inr
                    ⟨⟨h1, h2, h3, h4, h5, ?_, ?_⟩, hs'⟩))))))
                  · rintro ⟨_, hgf⟩
                    rw [hg] at hgf
                    exact absurd hgf (by decide)
                  · rintro ⟨hce, _⟩
                    rw [h6] at hce
                    exact absurd hce (by decide)
                · rw [if_neg hg] at h
                  split at h
                  · exact absurd h (by simp)
                  · rename_i i hmb
                    exact Or.inr (Or.inr (Or.inr (Or.inr (Or.inr (Or.inl
                      ⟨h6, by simpa using hg, i, hmb, finishStep_true _ b s' h⟩)))))
              · rw [if_neg h6] at h
                by_cases h7 : cmd = ']'
                · rw [if_pos h7] at h
                  by_cases hg : get_bit s
                  · rw [if_pos hg] at h
                    split at h
                    · exact absurd h (by simp)
                    · rename_i i hmb
                      exact Or.inr (Or.inr (Or.inr (Or.inr (Or.inr (Or.inr (Or.inl
                        ⟨h7, hg, i, hmb, finishStep_true _ b s' h⟩))))))
                  · rw [if_neg hg] at h
                    have hs' := finishStep_false s b s' h
                    refine Or.inr (Or.inr (Or.inr (Or.inr (Or.inr (Or.inr (Or.inr
                      ⟨⟨h1, h2, h3, h4, h5, ?_, ?_⟩, hs'⟩))))))
                    · rintro ⟨hce, _⟩
                      exact h6 hce
                    · rintro ⟨_, hgt⟩
                      exact hg hgt
                · rw [if_neg h7] at h
                  have hs' := finishStep_false s b s' h
                  refine Or.inr (Or.inr (Or.inr (Or.inr (Or.inr (Or.inr (Or.inr
                    ⟨⟨h1, h2, h3, h4, h5, ?_, ?_⟩, hs'⟩))))))
                  · rintro ⟨hce, _⟩
                    exact h6 hce
                  · rintro ⟨hce, _⟩
                    exact h7 hce

lemma step_next_code_eq (s : State) (b : Bool) (s' : State) (h : step s = .next b s') :
    s'.code = s.code := by
  obtain ⟨cmd, hcmd, hcases⟩ := step_next_cases s b s' h
  rcases hcases with ⟨_, t, hst, hs'⟩ | ⟨_, bi, s₁, t, hgi, hst, hs'⟩ | ⟨_, t, hpu, hs'⟩ |
    ⟨_, hs'⟩ | ⟨_, hs'⟩ | ⟨_, _, i, _, hs'⟩ | ⟨_, _, i, _, hs'⟩ | ⟨_, hs'⟩
  · subst hs'
    exact (set_bit_fields s _ t hst).2.2.2.2.1
  · subst hs'
    have h1 := (set_bit_fields s₁ bi t hst).2.2.2.2.1
    have h2 := get_input_bit_ok s bi s₁ hgi
    show t.code = s.code
    rw [h1, h2]
  · subst hs'
    exact (push_output_bit_fields s _ t hpu).2.2.1
  all_goals subst hs'
  all_goals rfl

lemma step_next_output_len (s : State) (b : Bool) (s' : State) (h : step s = .next b s') :
    s.output.length ≤ s'.output.length := by
  obtain ⟨cmd, hcmd, hcases⟩ := step_next_cases s b s' h
  rcases hcases with ⟨_, t, hst, hs'⟩ | ⟨_, bi, s₁, t, hgi, hst, hs'⟩ | ⟨_, t, hpu, hs'⟩ |
    ⟨_, hs'⟩ | ⟨_, hs'⟩ | ⟨_, _, i, _, hs'⟩ | ⟨_, _, i, _, hs'⟩ | ⟨_, hs'⟩
  · subst hs'
    show s.output.length ≤ t.output.length
    rw [(set_bit_fields s _ t hst).2.2.1]
  · subst hs'
    have h1 := (set_bit_fields s₁ bi t hst).2.2.1
    have h2 := get_input_bit_ok s bi s₁ hgi
    show s.output.length ≤ t.output.length
    rw [h1, h2]
  · subst hs'
    exact (push_output_bit_fields s _ t hpu).2.1
  all_goals subst hs'
  all_goals exact le_refl _

lemma step_next_output_eq (s : State) (b : Bool) (s' : State) (h : step s = .next b s')
    (hns : ';' ∉ s.code) : s'.output = s.output := by
  obtain ⟨cmd, hcmd, hcases⟩ := step_next_cases s b s' h
  rcases hcases with ⟨_, t, hst, hs'⟩ | ⟨_, bi, s₁, t, hgi, hst, hs'⟩ | ⟨hc, t, hpu, hs'⟩ |
    ⟨_, hs'⟩ | ⟨_, hs'⟩ | ⟨_, _, i, _, hs'⟩ | ⟨_, _, i, _, hs'⟩ | ⟨_, hs'⟩
  · subst hs'
    exact (set_bit_fields s _ t hst).2.2.1
  · subst hs'
    have h1 := (set_bit_fields s₁ bi t hst).2.2.1
    have h2 := get_input_bit_ok s bi s₁ hgi
    show t.output = s.output
    rw [h1, h2]
  · subst hc
    exact absurd (List.get?_mem hcmd) hns
  all_goals subst hs'
  all_goals rfl

lemma runFuel_out_len : ∀ (n : Nat) (s : State) (l : List Nat),
    runFuel n s = .out l → s.output.length ≤ l.length := by
  intro n
  induction n with
  | zero =>
    intro s l h
    exact absurd h (by simp [runFuel])
  | succ n ih =>
    intro s l h
    rw [runFuel] at h
    split at h
    · exact absurd h (by simp)
    · exact absurd h (by simp)
    · rename_i s' hst
      exact le_trans (step_next_output_len s true s' hst) (ih s' l h)
    · rename_i s' hst
      injection h with h
      subst h
      exact step_next_output_len s false s' hst

lemma runFuel_out_no_semi : ∀ (n : Nat) (s : State) (l : List Nat), ';' ∉ s.code →
    runFuel n s = .out l → l = s.output := by
  intro n
  induction n with
  | zero =>
    intro s l _ h
    exact absurd h (by simp [runFuel])
  | succ n ih =>
    intro s l hns h
    rw [runFuel] at h
    split at h
    · exact absurd h (by simp)
    · exact absurd h (by simp)
    · rename_i s' hst
      have hns' : ';' ∉ s'.code := by
        rw [step_next_code_eq s true s' hst]
        exact hns
      rw [ih s' l hns' h, step_next_output_eq s true s' hst hns]
    · rename_i s' hst
      injection h with h
      subst h
      exact step_next_output_eq s false s' hst hns

/-! ## Claim C8 -/

/-- C8: the initial program counter is 0 (first conjunct), and each
successful step either — when a conditional jump is taken (`'['` on a
`false` bit or `']'` on a `true` bit) — sets the counter to exactly the
target returned by the bracket matcher, with no further increment, or —
otherwise — increases the counter by exactly one (second conjunct). -/
theorem pc_advance :
    (∀ (c : List Char) (i : List Nat), (new c i).code_index = 0) ∧
    (∀ (s : State) (b : Bool) (s' : State) (cmd : Char), step s = .next b s' →
      s.code.get? s.code_index = some cmd →
      (((cmd = '[' ∧ get_bit s = false) ∨ (cmd = ']' ∧ get_bit s = true)) →
        get_matching_bracket s.code s.code_index cmd = .ok s'.code_index) ∧
      (¬((cmd = '[' ∧ get_bit s = false) ∨ (cmd = ']' ∧ get_bit s = true)) →
        s'.code_index = s.code_index + 1)) := by
  refine ⟨fun c i => rfl, ?_⟩
  intro s b s' cmd hstep hcmd
  obtain ⟨cmd', hcmd', hcases⟩ := step_next_cases s b s' hstep
  rw [hcmd] at hcmd'
  injection hcmd' with hcmd'
  subst hcmd'
  constructor
  · intro hj
    rcases hcases with ⟨hc, _⟩ | ⟨hc, _⟩ | ⟨hc, _⟩ | ⟨hc, _⟩ | ⟨hc, _⟩ |
      ⟨hc, hg, i, hmb, hs'⟩ | ⟨hc, hg, i, hmb, hs'⟩ | ⟨⟨_, _, _, _, _, hn1, hn2⟩, _⟩
    · rcases hj with ⟨he, _⟩ | ⟨he, _⟩ <;> (rw [he] at hc; exact absurd hc (by decide))
    · rcases hj with ⟨he, _⟩ | ⟨he, _⟩ <;> (rw [he] at hc; exact absurd hc (by decide))
    · rcases hj with ⟨he, _⟩ | ⟨he, _⟩ <;> (rw [he] at hc; exact absurd hc (by decide))
    · rcases hj with ⟨he, _⟩ | ⟨he, _⟩ <;> (rw [he] at hc; exact absurd hc (by decide))
    · rcases hj with ⟨he, _⟩ | ⟨he, _⟩ <;> (rw [he] at hc; exact absurd hc (by decide))
    · subst hs'
      rw [hc]
      exact hmb
    · subst hs'
      rw [hc]
      exact hmb
    · rcases hj with hj1 | hj1
      · exact absurd hj1 hn1
      · exact absurd hj1 hn2
  · intro hn
    rcases hcases with ⟨hc, t, hst, hs'⟩ | ⟨hc, bi, s₁, t, hgi, hst, hs'⟩ |
      ⟨hc, t, hpu, hs'⟩ | ⟨hc, hs'⟩ | ⟨hc, hs'⟩ | ⟨hc, hg, i, hmb, hs'⟩ |
      ⟨hc, hg, i, hmb, hs'⟩ | ⟨_, hs'⟩
    · subst hs'
      show t.code_index + 1 = s.code_index + 1
      rw [(set_bit_fields s _ t hst).2.2.2.2.2]
    · subst hs'
      have h1 := (set_bit_fields s₁ bi t hst).2.2.2.2.2
      have h2 := get_input_bit_ok s bi s₁ hgi
      show t.code_index + 1 = s.code_index + 1
      rw [h1, h2]
    · subst hs'
      show t.code_index + 1 = s.code_index + 1
      rw [(push_output_bit_fields s _ t hpu).2.2.2]
    · subst hs'; rfl
    · subst hs'; rfl
    · exact absurd (Or.inl ⟨hc, hg⟩) hn
    · exact absurd (Or.inr ⟨hc, hg⟩) hn
    · subst hs'; rfl

/-- Witness for C8, on the program `"+"`: the initial counter is 0 and
the (non-jump) `'+'` step moves the counter from 0 to 1. -/
theorem pc_advance_witness :
    (new ['+'] []).code_index = 0 ∧
    ({ new ['+'] [] with pos_tape := [true], code_index := 1 } : State).code_index = 0 + 1 :=
  ⟨pc_advance.1 ['+'] [],
   (pc_advance.2 (new ['+'] []) false
      { new ['+'] [] with pos_tape := [true], code_index := 1 } '+'
      (by decide) (by decide)).2 (by decide)⟩

/-! ## Claim C10 -/

/-- C10: the output buffer starts as the single zero byte (first
conjunct) and no successful step ever shrinks it (second conjunct), so
every successful run returns a non-empty byte sequence (third conjunct);
a program containing no `';'` (hence pushing no output bit) yields
exactly the one-byte output `[0x00]` (fourth conjunct). -/
theorem output_nonempty :
    (∀ (c : List Char) (i : List Nat), (new c i).output = [0]) ∧
    (∀ (s : State) (b : Bool) (s' : State), step s = .next b s' →
      s.output.length ≤ s'.output.length) ∧
    (∀ (c : List Char) (i : List Nat) (n : Nat) (l : List Nat),
      runFuel n (new c i) = .out l → 1 ≤ l.length) ∧
    (∀ (c : List Char) (i : List Nat) (n : Nat) (l : List Nat), ';' ∉ c →
      runFuel n (new c i) = .out l → l = [0]) := by
  refine ⟨fun c i => rfl, step_next_output_len, ?_, ?_⟩
  · intro c i n l h
    exact runFuel_out_len n (new c i) l h
  · intro c i n l hns h
    exact runFuel_out_no_semi n (new c i) l hns h

/-- Witness for C10, on the output-free program `"+"`: its successful
run returns the non-empty one-byte output `[0x00]`, and the `'+'` step
does not shrink the initial buffer. -/
theorem output_nonempty_witness :
    (new ['+'] []).output = [0] ∧
    (1 : Nat) ≤ ([0] : List Nat).length ∧
    ([0] : List Nat) = [0] ∧
    (new ['+'] []).output.length ≤
      ({ new ['+'] [] with pos_tape := [true], code_index := 1 } : State).output.length :=
  ⟨output_nonempty.1 ['+'] [],
   output_nonempty.2.2.1 ['+'] [] 1 [0] (by decide),
   output_nonempty.2.2.2 ['+'] [] 1 [0] (by decide) (by decide),
   output_nonempty.2.1 (new ['+'] []) false
     { new ['+'] [] with pos_tape := [true], code_index := 1 } (by decide)⟩

end Boolfuck
